import Mathlib

/-!
A shallow embedding of the lease/queue/expiry engine of `src/app.py`
(loadzone).

Modelling conventions:

* SQL tables become lists of row structures; `SELECT ... WHERE pk = x ...
  fetchone()` becomes `List.find?`, `UPDATE ... WHERE` becomes a `List.map`
  that rewrites the matching rows, `DELETE ... WHERE` becomes a `List.filter`
  on the negated condition, and `INSERT` appends to the list (the
  autoincrement id of the `queue` table is modelled by the `next_qid`
  counter).
* Stored timestamp strings are abstracted by their parse outcome: `TS.val t`
  stands for a non-null string that `datetime.fromisoformat` / `_parse_iso`
  parses to the instant `t` (an integer number of seconds), and `TS.bad`
  stands for a non-null string that fails to parse.  `parse_iso` is then the
  embedding of `_parse_iso` (app.py lines 199-209): `None` and unparsable
  strings map to `none`.
* `datetime.now()` is passed in explicitly as the `now : Int` argument.
* Python truthiness tests on nullable strings (`if row['booked_by']:`,
  `if user_email and ...`, `if first:`) are modelled by `truthy`, which is
  false exactly on `None` and the empty string.
* The HTTP-routing envelope (cookies, 401 on missing auth, missing `vm_id`)
  and the notification / scheduler side effects are outside the store and
  are not part of the state; each route's store transaction is embedded as a
  function `DB → ... → Result × DB` that returns the unchanged `DB` whenever
  the code returns an error before committing.
-/

/-- A stored (non-null) timestamp string, abstracted by its parse outcome. -/
inductive TS where
  | val (t : Int)
  | bad
deriving Repr, DecidableEq

/-- Embedding of `_parse_iso` (app.py 199-209) applied to a nullable stored
string: `None` parses to `None`, an unparsable string parses to `None`,
otherwise the parsed instant is returned. -/
def parse_iso : Option TS → Option Int
  | none => none
  | some (.val t) => some t
  | some .bad => none

/-- A row of the `vms` table (app.py 98-108); the non-semantic columns
`group_id`, `external_ip`, `internal_ip` are omitted. -/
structure VMRow where
  id : String
  booked_by : Option String
  expires_at : Option TS
deriving Repr, DecidableEq

/-- A row of the `queue` table (app.py 146-154). -/
structure QueueRow where
  id : Nat
  vm_id : String
  email : String
  position : Nat
deriving Repr, DecidableEq

/-- A row of the `bookings` history table (app.py 134-144); the autoincrement
id is not needed by the operations embedded on `DB` (the history compactor,
which does use ids, is embedded separately on `Ev` lists below). -/
structure BookingRow where
  user_email : Option String
  vm_id : Option String
  start : Option TS
  end_ : Option TS
  action : Option String
deriving Repr, DecidableEq

/-- The store: `vms`, `queue`, `bookings` and `users` tables, plus the
autoincrement counter for `queue.id`. -/
structure DB where
  vms : List VMRow
  queue : List QueueRow
  bookings : List BookingRow
  users : List String
  next_qid : Nat
deriving Repr, DecidableEq

/-- Python truthiness of a nullable string: `None` and `""` are falsy. -/
def truthy : Option String → Bool
  | none => false
  | some s => s != ""

/-- Embedding of `min(max(int(req.get('hours', 24)), 1), 24)` with
`except: hours = 24` (app.py 653-656 and 689-691).  The argument is the
request's `hours` field after `int()`: `none` covers both a missing field
and a value on which `int()` raises. -/
def clamp_hours : Option Int → Int
  | none => 24
  | some h => min (max h 1) 24

/-- `timedelta(hours=h)` in seconds. -/
def hoursDelta (h : Int) : Int := h * 3600

/-- `SELECT * FROM vms WHERE id = v ... fetchone()`. -/
def findVM (db : DB) (v : String) : Option VMRow :=
  db.vms.find? (fun r => r.id == v)

/-- `UPDATE vms SET ... WHERE id = v`. -/
def updateVM (db : DB) (v : String) (f : VMRow → VMRow) : DB :=
  { db with vms := db.vms.map (fun r => if r.id == v then f r else r) }

/-- `ORDER BY position`. -/
def sortByPos (l : List QueueRow) : List QueueRow :=
  l.insertionSort (fun a b => a.position ≤ b.position)

/-- `SELECT * FROM queue WHERE vm_id = v ORDER BY position`. -/
def vmQueueRows (db : DB) (v : String) : List QueueRow :=
  sortByPos (db.queue.filter (fun r => r.vm_id == v))

/-- `SELECT email FROM queue WHERE vm_id = v ORDER BY position` (app.py 284). -/
def queueEmails (db : DB) (v : String) : List String :=
  (vmQueueRows db v).map (·.email)

/-- Embedding of the renumbering loop
`for pos, r in enumerate(remaining, start=1): UPDATE queue SET position = pos
WHERE id = r.id` (app.py 819-820 and 918-919); `s` is the next position to
assign (initially 1). -/
def applyRenumber : List QueueRow → List QueueRow → Nat → List QueueRow
  | q, [], _ => q
  | q, r :: rs, s =>
    applyRenumber (q.map (fun x => if x.id == r.id then { x with position := s } else x)) rs (s + 1)

/-- Result of `POST /book` (app.py 646-680). -/
inductive BookRes where
  | notFound
  | alreadyLeased
  | ok (expires : Int)
deriving Repr, DecidableEq

/-- Embedding of the `book_vm` transaction (app.py 646-676): look the row up
with a locking read, fail `notFound` / `alreadyLeased` without touching the
store, otherwise set owner and expiry to `now + hours` and append a `book`
history record whose `end` is the expiry. -/
def book_vm (db : DB) (user_email v : String) (hoursReq : Option Int) (now : Int) :
    BookRes × DB :=
  let hours := clamp_hours hoursReq
  match findVM db v with
  | none => (.notFound, db)
  | some row =>
    if truthy row.booked_by then (.alreadyLeased, db)
    else
      let expires := now + hoursDelta hours
      let db1 := updateVM db v
        (fun r => { r with booked_by := some user_email, expires_at := some (.val expires) })
      let db2 := { db1 with bookings := db1.bookings ++
        [⟨some user_email, some v, some (.val now), some (.val expires), some "book"⟩] }
      (.ok expires, db2)

/-- Result of `POST /renew` (app.py 682-716). -/
inductive RenewRes where
  | notFound
  | notOwner
  | ok (newExpires : Int)
deriving Repr, DecidableEq

/-- Embedding of the `renew_vm` transaction (app.py 682-712): requires the
requester to be the current owner; the new expiry is the parsed stored
expiry plus the duration, falling back to `now` as the base when the stored
expiry is null or unparsable (`try: fromisoformat(...) if ... else now()
except: now()`, app.py 704-707); appends a `renew` record. -/
def renew_vm (db : DB) (user_email v : String) (hoursReq : Option Int) (now : Int) :
    RenewRes × DB :=
  let hours := clamp_hours hoursReq
  match findVM db v with
  | none => (.notFound, db)
  | some row =>
    if row.booked_by != some user_email then (.notOwner, db)
    else
      let expires_old := match parse_iso row.expires_at with
        | some t => t
        | none => now
      let new_expires := expires_old + hoursDelta hours
      let db1 := updateVM db v (fun r => { r with expires_at := some (.val new_expires) })
      let db2 := { db1 with bookings := db1.bookings ++
        [⟨some user_email, some v, some (.val now), some (.val new_expires), some "renew"⟩] }
      (.ok new_expires, db2)

/-- Result of `POST /cancel` (app.py 833-859). -/
inductive CancelRes where
  | notFound
  | notOwner
  | ok
deriving Repr, DecidableEq

/-- Embedding of the `cancel_booking` transaction (app.py 843-854): requires
ownership, clears owner and expiry, appends a `cancel` record with
`end = None`. -/
def cancel_booking (db : DB) (user_email v : String) (now : Int) : CancelRes × DB :=
  match findVM db v with
  | none => (.notFound, db)
  | some row =>
    if row.booked_by != some user_email then (.notOwner, db)
    else
      let db1 := updateVM db v (fun r => { r with booked_by := none, expires_at := none })
      let db2 := { db1 with bookings := db1.bookings ++
        [⟨some user_email, some v, some (.val now), none, some "cancel"⟩] }
      (.ok, db2)

/-- Result of `POST /queue/join` (app.py 728-794). -/
inductive JoinRes where
  | notFound
  | alreadyInQueue (pos : Nat)
  | queueFull
  | selfOwned
  | ok (pos : Nat)
deriving Repr, DecidableEq

/-- Embedding of the `join_queue` transaction (app.py 746-771), with the
checks in source order: already-queued (idempotent, returns the existing
1-based position), then queue full (`len >= 10`), then self-ownership, then
insert at position `count + 1`. -/
def join_queue (db : DB) (user_email v : String) : JoinRes × DB :=
  match findVM db v with
  | none => (.notFound, db)
  | some vm_row =>
    let existing_emails := queueEmails db v
    if existing_emails.contains user_email then
      (.alreadyInQueue (existing_emails.indexOf user_email + 1), db)
    else if existing_emails.length ≥ 10 then
      (.queueFull, db)
    else if vm_row.booked_by == some user_email then
      (.selfOwned, db)
    else
      (.ok (existing_emails.length + 1),
        { db with
            queue := db.queue ++ [⟨db.next_qid, v, user_email, existing_emails.length + 1⟩],
            next_qid := db.next_qid + 1 })

/-- Result of `POST /queue/leave` (app.py 796-831). -/
inductive LeaveRes where
  | notQueued
  | ok
deriving Repr, DecidableEq

/-- Embedding of the `leave_queue` transaction (app.py 806-820): find the
requester's entry, fail `notQueued` if absent, delete it by id, then re-read
the remaining entries of this resource ordered by position and renumber them
densely from 1, all in the same transaction. -/
def leave_queue (db : DB) (user_email v : String) : LeaveRes × DB :=
  match db.queue.find? (fun r => r.vm_id == v && r.email == user_email) with
  | none => (.notQueued, db)
  | some row =>
    let q1 := db.queue.filter (fun r => !(r.id == row.id))
    let remaining := sortByPos (q1.filter (fun r => r.vm_id == v))
    (.ok, { db with queue := applyRenumber q1 remaining 1 })

/-- Embedding of `release_vm` (app.py 897-921): if the resource exists,
append a `release` record when the owner is truthy *and* exists in the
`users` table, clear owner and expiry unconditionally, then pop the queue
head (if truthy) and renumber the remainder.  Returns the popped email (the
code's `first`) together with the new store. -/
def release_vm (db : DB) (v : String) (now : Int) : Option String × DB :=
  match findVM db v with
  | none => (none, db)
  | some row =>
    let db1 :=
      match row.booked_by with
      | some u =>
        if u != "" && db.users.contains u then
          { db with bookings := db.bookings ++
            [⟨some u, some v, some (.val now), none, some "release"⟩] }
        else db
      | none => db
    let db2 := updateVM db1 v (fun r => { r with booked_by := none, expires_at := none })
    let first := (vmQueueRows db2 v).head?.map (·.email)
    match first with
    | some f =>
      if f != "" then
        let q1 := db2.queue.filter (fun r => !(r.vm_id == v && r.email == f))
        let remaining := sortByPos (q1.filter (fun r => r.vm_id == v))
        (some f, { db2 with queue := applyRenumber q1 remaining 1 })
      else (some f, db2)
    | none => (none, db2)

/-- Embedding of the `add_vm` route's store effect (app.py 469-510): reject a
duplicate id, otherwise insert a fresh row with `booked_by = None` and
`expires_at = None`.  Returns whether the resource was created. -/
def add_vm (db : DB) (v : String) : Bool × DB :=
  if (findVM db v).isSome then (false, db)
  else (true, { db with vms := db.vms ++ [⟨v, none, none⟩] })

/-- Embedding of the `delete_vm` route's store effect (app.py 564-593): if
the row exists and has a truthy owner, append a `deleted` record attributed
to that owner; then delete the vm row and its queue rows.  Returns whether
the resource existed. -/
def delete_vm (db : DB) (v : String) (now : Int) : Bool × DB :=
  match findVM db v with
  | none => (false, db)
  | some row =>
    let db1 :=
      if truthy row.booked_by then
        { db with bookings := db.bookings ++
          [⟨row.booked_by, some v, some (.val now), none, some "deleted"⟩] }
      else db
    (true, { db1 with
        vms := db1.vms.filter (fun r => !(r.id == v)),
        queue := db1.queue.filter (fun r => !(r.vm_id == v)) })

/-- Embedding of the periodic sweep `check_and_release_expired_vms`
(app.py 996-1039): select the rows with non-null owner and non-null expiry,
keep those whose expiry parses (`if not expires_at: continue`) and is `≤ now`,
and call `release_vm` on each. -/
def check_and_release_expired_vms (db : DB) (now : Int) : DB :=
  let rows := db.vms.filter (fun r => r.booked_by.isSome && r.expires_at.isSome)
  let expired := rows.filterMap (fun r =>
    match parse_iso r.expires_at with
    | none => none
    | some t => if t ≤ now then some r.id else none)
  expired.foldl (fun d vid => (release_vm d vid now).2) db

/-! ### History compaction (`purge_old_history`, app.py 1042-1113)

The compactor groups all history rows by `(user_email, vm_id)` and runs the
per-group body (app.py 1062-1101) on each group's event list; that body is
embedded here on a list of `Ev`. -/

/-- One history row as seen by the compactor's per-group loop. -/
structure Ev where
  id : Nat
  start : Option TS
  end_ : Option TS
  action : Option String
deriving Repr, DecidableEq

/-- `datetime.fromtimestamp(0)`, the sort fallback for unparsable starts. -/
def epoch : Int := 0

/-- The sort key `x.get('_start_dt') or datetime.fromtimestamp(0)`
(app.py 1068 and 1092). -/
def sortKey (ev : Ev) : Int := (parse_iso ev.start).getD epoch

/-- `action in ('cancel', 'release')`. -/
def isCR (ev : Ev) : Bool := ev.action == some "cancel" || ev.action == some "release"

/-- `action == 'book'`. -/
def isBookEv (ev : Ev) : Bool := ev.action == some "book"

/-- Phase 1 of the per-group loop (app.py 1070-1087): a `cancel`/`release`
row is kept unless its parsed start is before the cutoff; a `book` row is
kept unless its parsed end is before the cutoff; any other row is kept
unless its parsed start is before the cutoff. -/
def phase1Keep (cutoff : Int) (ev : Ev) : Bool :=
  if isCR ev then
    match parse_iso ev.start with
    | some s => if s < cutoff then false else true
    | none => true
  else if isBookEv ev then
    match parse_iso ev.end_ with
    | some e => if e < cutoff then false else true
    | none => true
  else
    match parse_iso ev.start with
    | some s => if s < cutoff then false else true
    | none => true

/-- One iteration of phase 2 of the per-group loop (app.py 1088-1098): for a
`cancel`/`release` row whose parsed start is before the cutoff, discard from
the keep set every `book` row whose sort key is not after the cancel time,
and (when such books exist) the cancel row's own id. -/
def phase2Step (cutoff : Int) (all : List Ev) (acc : List Nat) (ev : Ev) : List Nat :=
  if isCR ev then
    match parse_iso ev.start with
    | some ct =>
      if ct < cutoff then
        let prev_books := all.filter (fun b => isBookEv b && decide (sortKey b ≤ ct))
        if prev_books.isEmpty then acc
        else (acc.filter (fun i => !((prev_books.map (·.id)).contains i))).filter
          (fun i => !(i == ev.id))
      else acc
    | none => acc
  else acc

/-- The per-group body of `purge_old_history` (app.py 1062-1101): sort the
group's events by start (unparsable starts sort as the epoch), build the
phase-1 keep set, apply phase 2, and keep the surviving events in sorted
order. -/
def purgeGroup (cutoff : Int) (events : List Ev) : List Ev :=
  let sorted := events.insertionSort (fun a b => sortKey a ≤ sortKey b)
  let keep1 := (sorted.filter (phase1Keep cutoff)).map (·.id)
  let keep2 := sorted.foldl (phase2Step cutoff sorted) keep1
  sorted.filter (fun ev => keep2.contains ev.id)

/-! ### Invariants -/

/-- The spec's lease invariant: `owner != null ⇔ expiry != null`. -/
def ownExpInv (db : DB) : Prop :=
  ∀ r ∈ db.vms, r.booked_by.isSome ↔ r.expires_at.isSome

/-- The positions of the waitlist entries of resource `v` (in table order). -/
def vmPositions (db : DB) (v : String) : List Nat :=
  (db.queue.filter (fun r => r.vm_id == v)).map (·.position)

/-- The spec's waitlist invariant: for every resource, the positions of its
`N` entries are exactly `{1, ..., N}` (a permutation of `[1, ..., N]`:
no duplicates, no gaps). -/
def denseQ (db : DB) : Prop :=
  ∀ v : String, (vmPositions db v).Perm (List.range' 1 (vmPositions db v).length)

/-- Store well-formedness used as a hypothesis: primary keys are unique and
owners are never the empty string (they always come from a non-empty
authenticated `user_email`). -/
def DBwf (db : DB) : Prop :=
  (db.vms.map (·.id)).Nodup ∧
  (db.queue.map (·.id)).Nodup ∧
  (∀ r ∈ db.vms, r.booked_by ≠ some "")

/-! ### Helper lemmas -/

/-- Distinct keys identify list members. -/
theorem nodup_key_inj {α β : Type} (f : α → β) {l : List α}
    (h : (l.map f).Nodup) {x y : α} (hx : x ∈ l) (hy : y ∈ l) (hf : f x = f y) :
    x = y := by
  induction l with
  | nil => cases hx
  | cons a t ih =>
    simp only [List.map_cons, List.nodup_cons] at h
    rcases List.mem_cons.mp hx with rfl | hx' <;>
      rcases List.mem_cons.mp hy with rfl | hy'
    · rfl
    · exact absurd (hf ▸ List.mem_map_of_mem f hy') h.1
    · exact absurd (hf ▸ List.mem_map_of_mem f hx') h.1
    · exact ih h.2 hx' hy'

/-- The effect of `applyRenumber` on a single row: the position given by the
first entry of `rem` with the same id, if any. -/
def renumFun : List QueueRow → Nat → QueueRow → QueueRow
  | [], _, x => x
  | r :: rs, s, x =>
    if x.id == r.id then { x with position := s } else renumFun rs (s + 1) x

theorem renumFun_not_mem {rem : List QueueRow} {s : Nat} {x : QueueRow}
    (h : x.id ∉ rem.map (·.id)) : renumFun rem s x = x := by
  induction rem generalizing s with
  | nil => rfl
  | cons r rs ih =>
    simp only [List.map_cons, List.mem_cons, not_or] at h
    simp only [renumFun, beq_iff_eq, h.1, if_false]
    exact ih h.2

theorem renumFun_vm_id (rem : List QueueRow) (s : Nat) (x : QueueRow) :
    (renumFun rem s x).vm_id = x.vm_id := by
  induction rem generalizing s with
  | nil => rfl
  | cons r rs ih =>
    simp only [renumFun]
    split
    · rfl
    · exact ih (s + 1)

theorem renumFun_id (rem : List QueueRow) (s : Nat) (x : QueueRow) :
    (renumFun rem s x).id = x.id := by
  induction rem generalizing s with
  | nil => rfl
  | cons r rs ih =>
    simp only [renumFun]
    split
    · rfl
    · exact ih (s + 1)

theorem applyRenumber_eq_map (rem : List QueueRow) (q : List QueueRow) (s : Nat)
    (h : (rem.map (·.id)).Nodup) :
    applyRenumber q rem s = q.map (renumFun rem s) := by
  induction rem generalizing q s with
  | nil => simp [applyRenumber, renumFun]
  | cons r rs ih =>
    simp only [List.map_cons, List.nodup_cons] at h
    rw [applyRenumber, ih _ _ h.2, List.map_map]
    refine List.map_congr_left (fun x _ => ?_)
    simp only [Function.comp_apply]
    by_cases hx : x.id = r.id
    · have h1 : (if x.id == r.id then { x with position := s } else x)
          = { x with position := s } := by simp [hx]
      have h2 : ({ x with position := s } : QueueRow).id ∉ rs.map (·.id) := by
        simpa [hx] using h.1
      rw [h1, renumFun_not_mem h2]
      simp [renumFun, hx]
    · have h1 : (if x.id == r.id then { x with position := s } else x) = x := by simp [hx]
      rw [h1]
      simp [renumFun, hx]

theorem renumFun_positions (rem : List QueueRow) (s : Nat)
    (h : (rem.map (·.id)).Nodup) :
    rem.map (fun r => (renumFun rem s r).position) = List.range' s rem.length := by
  induction rem generalizing s with
  | nil => rfl
  | cons r rs ih =>
    simp only [List.map_cons, List.nodup_cons] at h
    have hhead : (renumFun (r :: rs) s r).position = s := by
      simp [renumFun]
    have htail : rs.map (fun x => (renumFun (r :: rs) s x).position)
        = rs.map (fun x => (renumFun rs (s + 1) x).position) := by
      refine List.map_congr_left (fun x hx => ?_)
      have hne : ¬(x.id = r.id) := by
        intro hxr
        exact h.1 (hxr ▸ List.mem_map_of_mem (·.id) hx)
      simp [renumFun, hne]
    simp only [List.map_cons, hhead, htail, ih (s + 1) h.2,
      List.length_cons, List.range'_succ]

theorem renumbered_dense (q1 : List QueueRow) (v : String)
    (h : (q1.map (·.id)).Nodup) :
    (((applyRenumber q1 (sortByPos (q1.filter (fun r => r.vm_id == v))) 1).filter
        (fun r => r.vm_id == v)).map (·.position)).Perm
      (List.range' 1 ((applyRenumber q1 (sortByPos (q1.filter (fun r => r.vm_id == v))) 1).filter
        (fun r => r.vm_id == v)).length) := by
  set rem := sortByPos (q1.filter (fun r => r.vm_id == v)) with hrem
  have hperm : rem.Perm (q1.filter (fun r => r.vm_id == v)) := List.perm_insertionSort _ _
  have hsub : ((q1.filter (fun r => r.vm_id == v)).map (·.id)).Sublist (q1.map (·.id)) :=
    List.Sublist.map _ (List.filter_sublist q1)
  have hremids : (rem.map (·.id)).Nodup :=
    (List.Perm.nodup_iff (hperm.map (·.id))).mpr (hsub.nodup h)
  have heq : applyRenumber q1 rem 1 = q1.map (renumFun rem 1) :=
    applyRenumber_eq_map rem q1 1 hremids
  have hfm : (applyRenumber q1 rem 1).filter (fun r => r.vm_id == v)
      = (q1.filter (fun r => r.vm_id == v)).map (renumFun rem 1) := by
    rw [heq, List.filter_map]
    congr 1
    exact List.filter_congr (fun x _ => by simp [Function.comp, renumFun_vm_id])
  have hpos : ((((applyRenumber q1 rem 1).filter (fun r => r.vm_id == v)).map (·.position))).Perm
      (List.range' 1 rem.length) := by
    rw [hfm, List.map_map]
    have h1 : (((q1.filter (fun r => r.vm_id == v)).map ((·.position) ∘ renumFun rem 1))).Perm
        (rem.map ((·.position) ∘ renumFun rem 1)) := (hperm.symm).map _
    have h2 : rem.map ((·.position) ∘ renumFun rem 1) = List.range' 1 rem.length := by
      simpa [Function.comp] using renumFun_positions rem 1 hremids
    exact h2 ▸ h1
  have hlen : ((applyRenumber q1 rem 1).filter (fun r => r.vm_id == v)).length = rem.length := by
    rw [hfm, List.length_map]
    exact (hperm.length_eq).symm
  rw [hlen]
  exact hpos

theorem renumbered_other (q1 : List QueueRow) (v v' : String) (hvv : v' ≠ v)
    (h : (q1.map (·.id)).Nodup) :
    (applyRenumber q1 (sortByPos (q1.filter (fun r => r.vm_id == v))) 1).filter
        (fun r => r.vm_id == v')
      = q1.filter (fun r => r.vm_id == v') := by
  set rem := sortByPos (q1.filter (fun r => r.vm_id == v)) with hrem
  have hperm : rem.Perm (q1.filter (fun r => r.vm_id == v)) := List.perm_insertionSort _ _
  have hsub : ((q1.filter (fun r => r.vm_id == v)).map (·.id)).Sublist (q1.map (·.id)) :=
    List.Sublist.map _ (List.filter_sublist q1)
  have hremids : (rem.map (·.id)).Nodup :=
    (List.Perm.nodup_iff (hperm.map (·.id))).mpr (hsub.nodup h)
  rw [applyRenumber_eq_map rem q1 1 hremids, List.filter_map]
  have hpred : q1.filter ((fun r => r.vm_id == v') ∘ renumFun rem 1)
      = q1.filter (fun r => r.vm_id == v') :=
    List.filter_congr (fun x _ => by simp [Function.comp, renumFun_vm_id])
  rw [hpred]
  have hid : ∀ x ∈ q1.filter (fun r => r.vm_id == v'), renumFun rem 1 x = x := by
    intro x hx
    refine renumFun_not_mem (fun hmem => ?_)
    rcases List.mem_map.mp hmem with ⟨y, hy, hyid⟩
    have hy' : y ∈ q1.filter (fun r => r.vm_id == v) := (hperm.mem_iff).mp hy
    have hxq : x ∈ q1 := (List.mem_filter.mp hx).1
    have hyq : y ∈ q1 := (List.mem_filter.mp hy').1
    have hxy : y = x := nodup_key_inj (·.id) h hyq hxq hyid
    have h1 := (List.mem_filter.mp hx).2
    have h2 := (List.mem_filter.mp hy').2
    rw [hxy] at h2
    rw [beq_iff_eq] at h1 h2
    exact hvv (h1 ▸ h2)
  exact (List.map_congr_left hid).trans (List.map_id _)

theorem findVM_mem {db : DB} {v : String} {row : VMRow} (h : findVM db v = some row) :
    row ∈ db.vms ∧ row.id = v := by
  refine ⟨List.mem_of_find?_eq_some h, ?_⟩
  have h1 := List.find?_some h
  rwa [beq_iff_eq] at h1

theorem ownExpInv_update {db : DB} (hinv : ownExpInv db) (v : String) (f : VMRow → VMRow)
    (hf : ∀ r ∈ db.vms, r.id = v → ((f r).booked_by.isSome ↔ (f r).expires_at.isSome)) :
    ∀ r ∈ (updateVM db v f).vms, r.booked_by.isSome ↔ r.expires_at.isSome := by
  intro r hr
  rcases List.mem_map.mp hr with ⟨x, hx, hgx⟩
  by_cases h : x.id = v
  · rw [← hgx]
    simpa [h] using hf x hx h
  · rw [← hgx]
    simpa [h] using hinv x hx

theorem release_vm_vms (db : DB) (v : String) (now : Int) {row : VMRow}
    (hfind : findVM db v = some row) :
    (release_vm db v now).2.vms
      = db.vms.map (fun r =>
          if r.id == v then { r with booked_by := none, expires_at := none } else r) := by
  simp only [release_vm, hfind]
  cases hb : row.booked_by with
  | none => split <;> simp [updateVM] <;> split <;> simp [updateVM]
  | some u =>
    split <;> simp [updateVM, apply_ite (fun d : DB => d.vms)] <;>
      split <;> simp [updateVM, apply_ite (fun d : DB => d.vms)]

theorem ownExpInv_book (db : DB) (hinv : ownExpInv db) (u v : String)
    (hq : Option Int) (now : Int) : ownExpInv (book_vm db u v hq now).2 := by
  unfold book_vm
  cases hfind : findVM db v with
  | none => simpa using hinv
  | some row =>
    by_cases hb : truthy row.booked_by
    · simpa [hb] using hinv
    · simp only [hb, if_false, Bool.false_eq_true]
      intro r hr
      exact ownExpInv_update hinv v _ (fun x _ _ => by simp) r hr

theorem ownExpInv_renew (db : DB) (hinv : ownExpInv db)
    (hids : (db.vms.map (·.id)).Nodup) (u v : String)
    (hq : Option Int) (now : Int) : ownExpInv (renew_vm db u v hq now).2 := by
  unfold renew_vm
  cases hfind : findVM db v with
  | none => simpa using hinv
  | some row =>
    by_cases hb : (row.booked_by != some u) = true
    · simpa [hb] using hinv
    · have hbu : row.booked_by = some u := by
        simpa using hb
      simp only [hb, if_false, Bool.false_eq_true]
      intro r hr
      refine ownExpInv_update hinv v _ (fun x hx hxv => ?_) r hr
      obtain ⟨hrowmem, hrowid⟩ := findVM_mem hfind
      have hxrow : x = row := nodup_key_inj (·.id) hids hx hrowmem (hxv.trans hrowid.symm)
      simp [hxrow, hbu]

theorem ownExpInv_cancel (db : DB) (hinv : ownExpInv db) (u v : String)
    (now : Int) : ownExpInv (cancel_booking db u v now).2 := by
  unfold cancel_booking
  cases hfind : findVM db v with
  | none => simpa using hinv
  | some row =>
    by_cases hb : (row.booked_by != some u) = true
    · simpa [hb] using hinv
    · simp only [hb, if_false, Bool.false_eq_true]
      intro r hr
      exact ownExpInv_update hinv v _ (fun x _ _ => by simp) r hr

theorem ownExpInv_release (db : DB) (hinv : ownExpInv db) (v : String)
    (now : Int) : ownExpInv (release_vm db v now).2 := by
  cases hfind : findVM db v with
  | none =>
    have heq : (release_vm db v now).2 = db := by
      simp [release_vm, hfind]
    rw [heq]
    exact hinv
  | some row =>
    intro r hr
    rw [release_vm_vms db v now hfind] at hr
    rcases List.mem_map.mp hr with ⟨x, hx, hgx⟩
    by_cases h : x.id = v
    · rw [← hgx]
      simp [h]
    · rw [← hgx]
      simpa [h] using hinv x hx

theorem ownExpInv_add (db : DB) (hinv : ownExpInv db) (v : String) :
    ownExpInv (add_vm db v).2 := by
  unfold add_vm
  split
  · exact hinv
  · intro r hr
    rcases List.mem_append.mp hr with h | h
    · exact hinv r h
    · simp only [List.mem_singleton] at h
      simp [h]

theorem ownExpInv_delete (db : DB) (hinv : ownExpInv db) (v : String)
    (now : Int) : ownExpInv (delete_vm db v now).2 := by
  unfold delete_vm
  cases hfind : findVM db v with
  | none => simpa using hinv
  | some row =>
    by_cases hb : truthy row.booked_by <;>
      · simp only [hb]
        intro r hr
        simp only [List.mem_filter] at hr
        exact hinv r hr.1

/-- C1: for every resource and after every operation (Book, Renew, Cancel,
Release, resource creation, resource deletion), the resource's owner field
is non-null if and only if its expiry field is non-null
(`owner != null ⇔ expiry != null`). -/
theorem C1_owner_iff_expiry (db : DB) (hinv : ownExpInv db)
    (hids : (db.vms.map (·.id)).Nodup) (u v : String) (hq : Option Int) (now : Int) :
    ownExpInv (book_vm db u v hq now).2 ∧
    ownExpInv (renew_vm db u v hq now).2 ∧
    ownExpInv (cancel_booking db u v now).2 ∧
    ownExpInv (release_vm db v now).2 ∧
    ownExpInv (add_vm db v).2 ∧
    ownExpInv (delete_vm db v now).2 :=
  ⟨ownExpInv_book db hinv u v hq now,
   ownExpInv_renew db hinv hids u v hq now,
   ownExpInv_cancel db hinv u v now,
   ownExpInv_release db hinv v now,
   ownExpInv_add db hinv v,
   ownExpInv_delete db hinv v now⟩

/-- C1 witness: the invariant is preserved at a concrete store. -/
theorem C1_owner_iff_expiry_witness :
    ownExpInv (book_vm ⟨[⟨"m", none, none⟩], [], [], ["u"], 0⟩ "u" "m" (some 2) 100).2 :=
  (C1_owner_iff_expiry ⟨[⟨"m", none, none⟩], [], [], ["u"], 0⟩
    (by intro r hr; simp at hr; simp [hr])
    (by simp) "u" "m" (some 2) 100).1

theorem queueEmails_length (db : DB) (v : String) :
    (queueEmails db v).length = (db.queue.filter (fun r => r.vm_id == v)).length := by
  simp [queueEmails, vmQueueRows, sortByPos, List.length_insertionSort]

theorem denseQ_join (db : DB) (hdense : denseQ db) (u v : String) :
    denseQ (join_queue db u v).2 := by
  cases hfind : findVM db v with
  | none =>
    have hred : (join_queue db u v).2 = db := by simp [join_queue, hfind]
    rw [hred]; exact hdense
  | some vm_row =>
    by_cases h1 : u ∈ queueEmails db v
    · have hred : (join_queue db u v).2 = db := by simp [join_queue, hfind, h1]
      rw [hred]; exact hdense
    · by_cases h2 : 10 ≤ (queueEmails db v).length
      · have hred : (join_queue db u v).2 = db := by simp [join_queue, hfind, h1, h2]
        rw [hred]; exact hdense
      · by_cases h3 : vm_row.booked_by = some u
        · have hred : (join_queue db u v).2 = db := by simp [join_queue, hfind, h1, h2, h3]
          rw [hred]; exact hdense
        · have hred : (join_queue db u v).2 =
              { db with
                  queue := db.queue ++
                    [⟨db.next_qid, v, u, (queueEmails db v).length + 1⟩],
                  next_qid := db.next_qid + 1 } := by
            simp [join_queue, hfind, h1, h2, h3]
          rw [hred]
          intro v'
          by_cases hv : v' = v
          · subst hv
            simp only [vmPositions, List.filter_append, List.map_append]
            have hnew : (List.filter (fun r => r.vm_id == v')
                [(⟨db.next_qid, v', u, (queueEmails db v').length + 1⟩ : QueueRow)])
                = [⟨db.next_qid, v', u, (queueEmails db v').length + 1⟩] := by
              simp
            rw [hnew]
            have hlen := queueEmails_length db v'
            have hbase := hdense v'
            simp only [vmPositions, List.length_map] at hbase
            set M := (db.queue.filter (fun r => r.vm_id == v')).length with hM
            have hposs : (List.map (fun r => r.position)
                  [(⟨db.next_qid, v', u, (queueEmails db v').length + 1⟩ : QueueRow)])
                = [M + 1] := by
              simp [hlen]
            rw [hposs]
            have hperm : ((db.queue.filter (fun r => r.vm_id == v')).map
                  (fun r => r.position) ++ [M + 1]).Perm
                (List.range' 1 M ++ [M + 1]) :=
              hbase.append_right [M + 1]
            have hconcat : List.range' 1 (M + 1) = List.range' 1 M ++ [M + 1] := by
              rw [List.range'_concat]
              simp [Nat.add_comm]
            have hlens : ((db.queue.filter (fun r => r.vm_id == v')).map
                (fun r => r.position) ++ [M + 1]).length = M + 1 := by
              simp
            rw [hlens, hconcat]
            exact hperm
          · have hne : ¬(v = v') := fun h => hv h.symm
            simp only [vmPositions, List.filter_append, List.map_append]
            have hnew : (List.filter (fun r => r.vm_id == v')
                [(⟨db.next_qid, v, u, (queueEmails db v).length + 1⟩ : QueueRow)])
                = [] := by
              simp [hne]
            rw [hnew]
            simpa [vmPositions] using hdense v'

theorem denseQ_leave (db : DB) (hqids : (db.queue.map (·.id)).Nodup)
    (hdense : denseQ db) (u v : String) : denseQ (leave_queue db u v).2 := by
  cases hfindq : db.queue.find? (fun r => r.vm_id == v && r.email == u) with
  | none =>
    have hred : (leave_queue db u v).2 = db := by simp [leave_queue, hfindq]
    rw [hred]; exact hdense
  | some row =>
    have hredq : (leave_queue db u v).2.queue =
        applyRenumber (db.queue.filter (fun r => !(r.id == row.id)))
          (sortByPos ((db.queue.filter (fun r => !(r.id == row.id))).filter
            (fun r => r.vm_id == v)))
          1 := by
      simp [leave_queue, hfindq]
    set q1 := db.queue.filter (fun r => !(r.id == row.id)) with hq1
    have hq1ids : (q1.map (·.id)).Nodup := by
      have hsub : (q1.map (·.id)).Sublist (db.queue.map (·.id)) :=
        List.Sublist.map _ (List.filter_sublist _)
      exact hsub.nodup hqids
    have hrowmem : row ∈ db.queue := List.mem_of_find?_eq_some hfindq
    have hrowvm : row.vm_id = v := by
      have h1 := List.find?_some hfindq
      rw [Bool.and_eq_true] at h1
      rw [← beq_iff_eq]
      exact h1.1
    intro v'
    by_cases hv : v' = v
    · subst hv
      simp only [vmPositions, hredq]
      simpa using renumbered_dense q1 v' hq1ids
    · have hother := renumbered_other q1 v v' hv hq1ids
      have hsame : q1.filter (fun r => r.vm_id == v')
          = db.queue.filter (fun r => r.vm_id == v') := by
        rw [hq1, List.filter_filter]
        refine List.filter_congr (fun x hx => ?_)
        by_cases hxv : x.vm_id = v'
        · simp only [hxv, beq_self_eq_true, Bool.true_and, Bool.and_true]
          have hxid : ¬(x.id = row.id) := by
            intro hid
            have hxrow : x = row := nodup_key_inj (·.id) hqids hx hrowmem hid
            rw [hxrow] at hxv
            exact hv (hxv ▸ hrowvm.symm ▸ rfl)
          simp [hxid]
        · simp [hxv]
      simp only [vmPositions, hredq]
      rw [hother, hsame]
      simpa [vmPositions] using hdense v'

theorem release_vm_queue (db : DB) (v : String) (now : Int) :
    (release_vm db v now).2.queue = db.queue ∨
    ∃ f : String, (release_vm db v now).2.queue =
      applyRenumber (db.queue.filter (fun r => !(r.vm_id == v && r.email == f)))
        (sortByPos ((db.queue.filter (fun r => !(r.vm_id == v && r.email == f))).filter
          (fun r => r.vm_id == v)))
        1 := by
  cases hfind : findVM db v with
  | none =>
    left
    simp [release_vm, hfind]
  | some row =>
    simp only [release_vm, hfind]
    cases hbb : row.booked_by with
    | none =>
      split
      next f heq =>
        by_cases hfe : (f != "") = true
        · rw [if_pos hfe]
          right
          exact ⟨f, by simp [updateVM]⟩
        · rw [if_neg hfe]
          left
          simp [updateVM]
      next heq =>
        left
        simp [updateVM]
    | some uu =>
      by_cases hc : (uu != "" && db.users.contains uu) = true
      · simp only [hc, if_true]
        split
        next f heq =>
          by_cases hfe : (f != "") = true
          · rw [if_pos hfe]
            right
            exact ⟨f, by simp [updateVM]⟩
          · rw [if_neg hfe]
            left
            simp [updateVM]
        next heq =>
          left
          simp [updateVM]
      · simp only [hc, if_false, Bool.false_eq_true]
        split
        next f heq =>
          by_cases hfe : (f != "") = true
          · rw [if_pos hfe]
            right
            exact ⟨f, by simp [updateVM]⟩
          · rw [if_neg hfe]
            left
            simp [updateVM]
        next heq =>
          left
          simp [updateVM]

theorem denseQ_release (db : DB) (hqids : (db.queue.map (·.id)).Nodup)
    (hdense : denseQ db) (v : String) (now : Int) :
    denseQ (release_vm db v now).2 := by
  rcases release_vm_queue db v now with hq | ⟨f, hq⟩
  · intro v'
    simp only [vmPositions, hq]
    simpa [vmPositions] using hdense v'
  · set q1 := db.queue.filter (fun r => !(r.vm_id == v && r.email == f)) with hq1
    have hq1ids : (q1.map (·.id)).Nodup := by
      have hsub : (q1.map (·.id)).Sublist (db.queue.map (·.id)) :=
        List.Sublist.map _ (List.filter_sublist _)
      exact hsub.nodup hqids
    intro v'
    by_cases hv : v' = v
    · subst hv
      simp only [vmPositions, hq]
      simpa using renumbered_dense q1 v' hq1ids
    · have hother := renumbered_other q1 v v' hv hq1ids
      have hsame : q1.filter (fun r => r.vm_id == v')
          = db.queue.filter (fun r => r.vm_id == v') := by
        rw [hq1, List.filter_filter]
        refine List.filter_congr (fun x hx => ?_)
        by_cases hxv : x.vm_id = v'
        · simp [hxv, hv]
        · simp [hxv]
      simp only [vmPositions, hq]
      rw [hother, hsame]
      simpa [vmPositions] using hdense v'

theorem denseQ_delete (db : DB) (hdense : denseQ db) (v : String) (now : Int) :
    denseQ (delete_vm db v now).2 := by
  cases hfind : findVM db v with
  | none =>
    have hred : (delete_vm db v now).2 = db := by simp [delete_vm, hfind]
    rw [hred]; exact hdense
  | some row =>
    have hredq : (delete_vm db v now).2.queue
        = db.queue.filter (fun r => !(r.vm_id == v)) := by
      by_cases hb : truthy row.booked_by <;> simp [delete_vm, hfind, hb]
    intro v'
    by_cases hv : v' = v
    · subst hv
      have hnil : List.filter (fun r => r.vm_id == v')
          ((delete_vm db v' now).2.queue) = [] := by
        rw [hredq, List.filter_filter]
        have hfalse : db.queue.filter
            (fun a => a.vm_id == v' && !(a.vm_id == v')) = db.queue.filter (fun _ => false) :=
          List.filter_congr (fun x _ => by by_cases hxv : x.vm_id = v' <;> simp [hxv])
        rw [hfalse, List.filter_false]
      simp [vmPositions, hnil]
    · have hsame : List.filter (fun r => r.vm_id == v') ((delete_vm db v now).2.queue)
          = db.queue.filter (fun r => r.vm_id == v') := by
        rw [hredq, List.filter_filter]
        refine List.filter_congr (fun x hx => ?_)
        by_cases hxv : x.vm_id = v'
        · simp [hxv, hv]
        · simp [hxv]
      simp only [vmPositions, hsame]
      simpa [vmPositions] using hdense v'

/-- A sample store used by witnesses: one leased resource with a three-entry
waitlist. -/
def dbQ : DB :=
  ⟨[⟨"m", some "o", some (.val 50)⟩],
   [⟨0, "m", "a", 1⟩, ⟨1, "m", "b", 2⟩, ⟨2, "m", "c", 3⟩], [], ["o"], 3⟩

theorem dbQ_dense : denseQ dbQ := by
  intro v
  by_cases h : v = "m"
  · subst h
    decide
  · have hb : (("m" : String) == v) = false := by
      simp only [beq_eq_false_iff_ne, ne_eq]
      exact fun hh => h hh.symm
    simp [vmPositions, dbQ, hb]

/-- C2: for every resource the waitlist positions are exactly `{1..N}` (no
duplicates, no gaps), and every operation that changes a waitlist — Join's
insert, Leave's delete-and-renumber, the pop-and-renumber inside Release,
and resource deletion — re-establishes this density within the same
mutation, so callers never observe a non-dense sequence. -/
theorem C2_dense_positions (db : DB) (hqids : (db.queue.map (·.id)).Nodup)
    (hdense : denseQ db) (u v : String) (now : Int) :
    denseQ (join_queue db u v).2 ∧
    denseQ (leave_queue db u v).2 ∧
    denseQ (release_vm db v now).2 ∧
    denseQ (delete_vm db v now).2 :=
  ⟨denseQ_join db hdense u v,
   denseQ_leave db hqids hdense u v,
   denseQ_release db hqids hdense v now,
   denseQ_delete db hdense v now⟩

/-- C2 witness: density is preserved by a concrete Leave on a concrete
three-entry waitlist. -/
theorem C2_dense_positions_witness : denseQ (leave_queue dbQ "b" "m").2 :=
  (C2_dense_positions dbQ (by decide) dbQ_dense "b" "m" 0).2.1

/-- C8: Join is idempotent for a requester already in the waitlist: the call
returns the existing 1-based position as `alreadyInQueue`, leaves the store
unchanged (so the waitlist does not grow), and a second identical call
returns the same result. -/
theorem C8_join_idempotent (db : DB) (u v : String) (row : VMRow)
    (hfind : findVM db v = some row) (hin : u ∈ queueEmails db v) :
    join_queue db u v
      = (.alreadyInQueue ((queueEmails db v).indexOf u + 1), db) ∧
    join_queue (join_queue db u v).2 u v = join_queue db u v ∧
    (join_queue db u v).2.queue = db.queue := by
  have h1 : join_queue db u v
      = (.alreadyInQueue ((queueEmails db v).indexOf u + 1), db) := by
    simp [join_queue, hfind, hin]
  refine ⟨h1, ?_, ?_⟩
  · rw [h1]
    exact h1
  · rw [h1]

/-- C8 witness: joining twice from the second queue slot of the sample store
returns position 2 both times and leaves the queue unchanged. -/
theorem C8_join_idempotent_witness :
    join_queue dbQ "b" "m"
      = (.alreadyInQueue ((queueEmails dbQ "m").indexOf "b" + 1), dbQ) ∧
    join_queue (join_queue dbQ "b" "m").2 "b" "m" = join_queue dbQ "b" "m" ∧
    (join_queue dbQ "b" "m").2.queue = dbQ.queue :=
  C8_join_idempotent dbQ "b" "m" ⟨"m", some "o", some (.val 50)⟩
    (by decide) (by decide)

/-- C3: Renew by the current owner is additive to the stored window: when the
stored expiry parses to `E`, the new expiry is `E + durationHours` (not
`now + durationHours`), and the base falls back to `now` exactly when the
stored expiry is null or unparsable.  `durationHours` ranges over the valid
duration range [1, 24] (the request-level clamping is claim C10). -/
theorem C3_renew_additive (db : DB) (u v : String) (h : Int)
    (hh : 1 ≤ h ∧ h ≤ 24) (now : Int) (row : VMRow)
    (hfind : findVM db v = some row) (hown : row.booked_by = some u) :
    (∀ E : Int, row.expires_at = some (.val E) →
      (renew_vm db u v (some h) now).1 = .ok (E + hoursDelta h) ∧
      ∀ r ∈ (renew_vm db u v (some h) now).2.vms, r.id = v →
        r.expires_at = some (.val (E + hoursDelta h))) ∧
    ((row.expires_at = none ∨ row.expires_at = some .bad) →
      (renew_vm db u v (some h) now).1 = .ok (now + hoursDelta h)) := by
  have hch : clamp_hours (some h) = h := by
    simp only [clamp_hours]
    omega
  have hbne : (row.booked_by != some u) = false := by simp [hown]
  constructor
  · intro E hE
    have hpe : parse_iso row.expires_at = some E := by rw [hE]; rfl
    constructor
    · simp [renew_vm, hfind, hbne, hpe, hch]
    · intro r hr hrid
      have hvms : (renew_vm db u v (some h) now).2.vms
          = db.vms.map (fun x => if x.id == v
              then { x with expires_at := some (.val (E + hoursDelta h)) } else x) := by
        simp [renew_vm, hfind, hbne, hpe, hch, updateVM]
      rw [hvms] at hr
      rcases List.mem_map.mp hr with ⟨x, hx, hgx⟩
      by_cases hxid : x.id = v
      · rw [← hgx]
        simp [hxid]
      · exfalso
        rw [← hgx] at hrid
        simp [hxid] at hrid
  · intro hE
    have hpe : parse_iso row.expires_at = none := by
      rcases hE with hE | hE <;> rw [hE] <;> rfl
    simp [renew_vm, hfind, hbne, hpe, hch]

/-- C3 witness: renewing a lease whose stored expiry is 7300 by 3 hours at
`now = 200` yields expiry 7300 + 3·3600, not 200 + 3·3600. -/
theorem C3_renew_additive_witness :
    (renew_vm ⟨[⟨"m", some "u", some (.val 7300)⟩], [], [], ["u"], 0⟩
        "u" "m" (some 3) 200).1 = .ok (7300 + hoursDelta 3) :=
  ((C3_renew_additive ⟨[⟨"m", some "u", some (.val 7300)⟩], [], [], ["u"], 0⟩
      "u" "m" 3 (by omega) 200 ⟨"m", some "u", some (.val 7300)⟩
      (by decide) rfl).1 7300 rfl).1

/-- C10: the duration a Renew actually applies is the request's `hours`
clamped to [1, 24], with a missing or non-integer `hours` treated as 24 —
the same clamping Book uses. -/
theorem C10_renew_clamp (db : DB) (u v : String) (hq : Option Int) (now : Int)
    (row : VMRow) (hfind : findVM db v = some row) (hown : row.booked_by = some u)
    (E : Int) (hE : row.expires_at = some (.val E)) :
    1 ≤ clamp_hours hq ∧ clamp_hours hq ≤ 24 ∧ clamp_hours none = 24 ∧
    (renew_vm db u v hq now).1 = .ok (E + hoursDelta (clamp_hours hq)) := by
  have hbne : (row.booked_by != some u) = false := by simp [hown]
  have hpe : parse_iso row.expires_at = some E := by rw [hE]; rfl
  refine ⟨?_, ?_, rfl, ?_⟩
  · cases hq with
    | none => simp [clamp_hours]
    | some x =>
      simp only [clamp_hours]
      omega
  · cases hq with
    | none => simp [clamp_hours]
    | some x =>
      simp only [clamp_hours]
      omega
  · simp [renew_vm, hfind, hbne, hpe]

/-- C10 witness: a requested duration of 100 hours is applied as 24 hours. -/
theorem C10_renew_clamp_witness :
    clamp_hours (some 100) ≤ 24 ∧
    (renew_vm ⟨[⟨"m", some "u", some (.val 0)⟩], [], [], ["u"], 0⟩
        "u" "m" (some 100) 5).1 = .ok (0 + hoursDelta (clamp_hours (some 100))) :=
  ⟨(C10_renew_clamp ⟨[⟨"m", some "u", some (.val 0)⟩], [], [], ["u"], 0⟩
      "u" "m" (some 100) 5 ⟨"m", some "u", some (.val 0)⟩
      (by decide) rfl 0 rfl).2.1,
   (C10_renew_clamp ⟨[⟨"m", some "u", some (.val 0)⟩], [], [], ["u"], 0⟩
      "u" "m" (some 100) 5 ⟨"m", some "u", some (.val 0)⟩
      (by decide) rfl 0 rfl).2.2.2⟩

/-- C7: Book fails `notFound` iff the resource is absent and `alreadyLeased`
iff the resource exists with its owner already set; in both failure cases the
store is returned exactly as it was (no owner, expiry, history or waitlist
change).  The hypothesis `hwf` records that stored owners are never the
empty string (they always come from a non-empty authenticated email), so the
code's Python truthiness test on `booked_by` coincides with a null test. -/
theorem C7_book_errors (db : DB)
    (hwf : ∀ r ∈ db.vms, r.booked_by ≠ some "")
    (u v : String) (hq : Option Int) (now : Int) :
    ((book_vm db u v hq now).1 = .notFound ↔ findVM db v = none) ∧
    ((book_vm db u v hq now).1 = .alreadyLeased ↔
      ∃ row, findVM db v = some row ∧ row.booked_by.isSome) ∧
    (((book_vm db u v hq now).1 = .notFound ∨
      (book_vm db u v hq now).1 = .alreadyLeased) →
      (book_vm db u v hq now).2 = db) := by
  cases hfind : findVM db v with
  | none =>
    have hred : book_vm db u v hq now = (.notFound, db) := by
      simp [book_vm, hfind]
    rw [hred]
    refine ⟨by simp, ?_, by simp⟩
    simp [hfind]
  | some row =>
    have hrmem := (findVM_mem hfind).1
    by_cases hb : truthy row.booked_by
    · have hred : book_vm db u v hq now = (.alreadyLeased, db) := by
        simp [book_vm, hfind, hb]
      rw [hred]
      refine ⟨by simp [hfind], ?_, by simp⟩
      have hsome : row.booked_by.isSome := by
        cases hbb : row.booked_by with
        | none => rw [hbb] at hb; exact absurd hb (by simp [truthy])
        | some s => simp
      simp only [hfind]
      constructor
      · intro _
        exact ⟨row, rfl, hsome⟩
      · intro _
        trivial
    · have hbnone : row.booked_by = none := by
        cases hbb : row.booked_by with
        | none => rfl
        | some s =>
          exfalso
          have hsem : s = "" := by
            by_contra hne
            exact hb (by simp [truthy, hbb, hne])
          exact (hwf row hrmem) (by rw [hbb, hsem])
      have hres : (book_vm db u v hq now).1
          = .ok (now + hoursDelta (clamp_hours hq)) := by
        simp [book_vm, hfind, hb]
      refine ⟨?_, ?_, ?_⟩
      · rw [hres]
        simp [hfind]
      · constructor
        · intro hcon
          rw [hres] at hcon
          simp at hcon
        · rintro ⟨row', hrow', hsome⟩
          injection hrow' with hr'
          rw [← hr', hbnone] at hsome
          cases hsome
      · intro hcon
        rw [hres] at hcon
        rcases hcon with hcon | hcon <;> cases hcon

/-- C7 witness: booking an absent resource fails `notFound` and leaves the
store unchanged. -/
theorem C7_book_errors_witness :
    ((book_vm ⟨[⟨"m", none, none⟩], [], [], [], 0⟩ "u" "x" none 0).1 = .notFound
      ↔ findVM ⟨[⟨"m", none, none⟩], [], [], [], 0⟩ "x" = none) ∧
    (book_vm ⟨[⟨"m", none, none⟩], [], [], [], 0⟩ "u" "x" none 0).2
      = ⟨[⟨"m", none, none⟩], [], [], [], 0⟩ :=
  ⟨(C7_book_errors ⟨[⟨"m", none, none⟩], [], [], [], 0⟩
      (by intro r hr; simp at hr; simp [hr]) "u" "x" none 0).1,
   (C7_book_errors ⟨[⟨"m", none, none⟩], [], [], [], 0⟩
      (by intro r hr; simp at hr; simp [hr]) "u" "x" none 0).2.2
     (Or.inl (by decide))⟩

/-- A store whose only resource is owned by "o" and has a full (10-entry)
waitlist not containing "o". -/
def dbFull : DB :=
  ⟨[⟨"m", some "o", some (.val 50)⟩],
   [⟨0, "m", "q0", 1⟩, ⟨1, "m", "q1", 2⟩, ⟨2, "m", "q2", 3⟩, ⟨3, "m", "q3", 4⟩,
    ⟨4, "m", "q4", 5⟩, ⟨5, "m", "q5", 6⟩, ⟨6, "m", "q6", 7⟩, ⟨7, "m", "q7", 8⟩,
    ⟨8, "m", "q8", 9⟩, ⟨9, "m", "q9", 10⟩], [], ["o"], 10⟩

/-- C6 counterexample: with a full 10-entry waitlist, the owner's Join
returns `queueFull`, not the `selfOwned` failure the claim requires — the
capacity check runs before the self-ownership check (app.py 763-768). -/
theorem C6_counterexample :
    (findVM dbFull "m").map (·.booked_by) = some (some "o") ∧
    "o" ∉ queueEmails dbFull "m" ∧
    (queueEmails dbFull "m").length = 10 ∧
    (join_queue dbFull "o" "m").1 = .queueFull ∧
    (join_queue dbFull "o" "m").1 ≠ .selfOwned := by
  decide

/-- C6 amended: for a Join on an existing resource where the requester is
not yet queued and owns the resource, the call fails `selfOwned` whenever
the waitlist has fewer than 10 entries; with 10 or more entries the
capacity check fires first and the call fails `queueFull` instead.  Either
way the store is unchanged. -/
theorem C6_selfown_vs_full (db : DB) (u v : String) (row : VMRow)
    (hfind : findVM db v = some row) (hown : row.booked_by = some u)
    (hnotin : u ∉ queueEmails db v) :
    ((queueEmails db v).length < 10 → join_queue db u v = (.selfOwned, db)) ∧
    (10 ≤ (queueEmails db v).length → join_queue db u v = (.queueFull, db)) := by
  constructor
  · intro hlen
    have hlen' : ¬ 10 ≤ (queueEmails db v).length := by omega
    simp [join_queue, hfind, hnotin, hlen', hown]
  · intro hlen
    simp [join_queue, hfind, hnotin, hlen]

/-- C6 amended witness: at a 9-entry waitlist the owner's Join does fail
`selfOwned`. -/
theorem C6_selfown_vs_full_witness :
    join_queue ⟨[⟨"m", some "o", some (.val 50)⟩],
      [⟨0, "m", "q0", 1⟩, ⟨1, "m", "q1", 2⟩, ⟨2, "m", "q2", 3⟩, ⟨3, "m", "q3", 4⟩,
       ⟨4, "m", "q4", 5⟩, ⟨5, "m", "q5", 6⟩, ⟨6, "m", "q6", 7⟩, ⟨7, "m", "q7", 8⟩,
       ⟨8, "m", "q8", 9⟩], [], ["o"], 9⟩ "o" "m"
    = (.selfOwned, ⟨[⟨"m", some "o", some (.val 50)⟩],
      [⟨0, "m", "q0", 1⟩, ⟨1, "m", "q1", 2⟩, ⟨2, "m", "q2", 3⟩, ⟨3, "m", "q3", 4⟩,
       ⟨4, "m", "q4", 5⟩, ⟨5, "m", "q5", 6⟩, ⟨6, "m", "q6", 7⟩, ⟨7, "m", "q7", 8⟩,
       ⟨8, "m", "q8", 9⟩], [], ["o"], 9⟩) :=
  (C6_selfown_vs_full _ "o" "m" ⟨"m", some "o", some (.val 50)⟩
    (by decide) rfl (by decide)).1 (by decide)

theorem release_vm_bookings (db : DB) (v : String) (now : Int) {row : VMRow}
    (hfind : findVM db v = some row) {u : String} (hown : row.booked_by = some u) :
    (release_vm db v now).2.bookings
      = if (u != "" && db.users.contains u) = true
        then db.bookings ++ [⟨some u, some v, some (.val now), none, some "release"⟩]
        else db.bookings := by
  simp only [release_vm, hfind, hown]
  by_cases hc : (u != "" && db.users.contains u) = true
  · simp only [hc, if_true]
    split
    next f heq =>
      by_cases hfe : (f != "") = true
      · rw [if_pos hfe]
        simp [updateVM]
      · rw [if_neg hfe]
        simp [updateVM]
    next heq =>
      simp [updateVM]
  · simp only [hc, if_false, Bool.false_eq_true]
    split
    next f heq =>
      by_cases hfe : (f != "") = true
      · rw [if_pos hfe]
        simp [updateVM]
      · rw [if_neg hfe]
        simp [updateVM]
    next heq =>
      simp [updateVM]

/-- A store whose resource is owned by a requester that is absent from the
`users` table. -/
def dbGhost : DB := ⟨[⟨"m", some "ghost", some (.val 0)⟩], [], [], [], 0⟩

/-- C5 counterexample: the resource has a non-null owner ("ghost"), yet
Release appends no `release` history record, because the code additionally
requires `user_exists(owner)` (app.py 910); the claim's "unconditionally
whenever there was an owner" fails.  Owner and expiry are still cleared. -/
theorem C5_counterexample :
    (findVM dbGhost "m").map (·.booked_by) = some (some "ghost") ∧
    (release_vm dbGhost "m" 100).2.bookings = [] ∧
    (release_vm dbGhost "m" 100).2.vms = [⟨"m", none, none⟩] := by
  decide

/-- C5 amended: Release on an existing resource with a (non-empty) owner
clears owner and expiry unconditionally, but appends the `release` record
with `end = null` attributed to that owner only when the owner exists in
the `users` table; if the owner is not a registered user, no record is
appended. -/
theorem C5_release_record (db : DB) (v : String) (now : Int) (row : VMRow)
    (hfind : findVM db v = some row) (u : String) (hown : row.booked_by = some u)
    (hne : u ≠ "") :
    (∀ r ∈ (release_vm db v now).2.vms, r.id = v →
      r.booked_by = none ∧ r.expires_at = none) ∧
    (u ∈ db.users → (release_vm db v now).2.bookings
        = db.bookings ++ [⟨some u, some v, some (.val now), none, some "release"⟩]) ∧
    (u ∉ db.users → (release_vm db v now).2.bookings = db.bookings) := by
  refine ⟨?_, ?_, ?_⟩
  · intro r hr hrid
    rw [release_vm_vms db v now hfind] at hr
    rcases List.mem_map.mp hr with ⟨x, hx, hgx⟩
    by_cases hxid : x.id = v
    · rw [← hgx]
      simp [hxid]
    · exfalso
      rw [← hgx] at hrid
      simp [hxid] at hrid
  · intro hu
    rw [release_vm_bookings db v now hfind hown]
    have hc : (u != "" && db.users.contains u) = true := by
      simp [hne, hu]
    rw [if_pos hc]
  · intro hu
    rw [release_vm_bookings db v now hfind hown]
    have hc : ¬((u != "" && db.users.contains u) = true) := by
      simp [hne]
      intro hmem
      exact absurd hmem hu
    rw [if_neg hc]

/-- C5 amended witness: releasing a resource owned by a registered user
clears the lease and appends the `release` record. -/
theorem C5_release_record_witness :
    (∀ r ∈ (release_vm ⟨[⟨"m", some "o", some (.val 0)⟩], [], [], ["o"], 0⟩
        "m" 7).2.vms, r.id = "m" → r.booked_by = none ∧ r.expires_at = none) ∧
    (release_vm ⟨[⟨"m", some "o", some (.val 0)⟩], [], [], ["o"], 0⟩ "m" 7).2.bookings
      = [] ++ [⟨some "o", some "m", some (.val 7), none, some "release"⟩] :=
  ⟨(C5_release_record ⟨[⟨"m", some "o", some (.val 0)⟩], [], [], ["o"], 0⟩
      "m" 7 ⟨"m", some "o", some (.val 0)⟩ (by decide) "o" rfl (by decide)).1,
   (C5_release_record ⟨[⟨"m", some "o", some (.val 0)⟩], [], [], ["o"], 0⟩
      "m" 7 ⟨"m", some "o", some (.val 0)⟩ (by decide) "o" rfl (by decide)).2.1
     (by decide)⟩

theorem release_vm_preserves_other (db : DB) (w : String) (now : Int)
    {row : VMRow} (hmem : row ∈ db.vms) (hne : row.id ≠ w) :
    row ∈ (release_vm db w now).2.vms := by
  cases hfind : findVM db w with
  | none =>
    have heq : (release_vm db w now).2 = db := by simp [release_vm, hfind]
    rw [heq]
    exact hmem
  | some r0 =>
    rw [release_vm_vms db w now hfind]
    have hrow : (fun r : VMRow =>
        if r.id == w then { r with booked_by := none, expires_at := none } else r) row
        = row := by
      simp [hne]
    exact hrow ▸ List.mem_map_of_mem _ hmem

/-- A store with a leased resource whose stored expiry is unparsable. -/
def dbBad : DB := ⟨[⟨"m", some "u", some .bad⟩], [], [], ["u"], 0⟩

/-- C4 counterexample: the periodic sweep leaves a leased resource with an
unparsable expiry entirely alone — the owner stays set and no release
record appears — contradicting the claim that the sweep treats such a lease
as expired and releases it (the code does `if not expires_at: continue`,
app.py 1022-1024). -/
theorem C4_counterexample :
    (findVM dbBad "m").map (·.booked_by) = some (some "u") ∧
    check_and_release_expired_vms dbBad 1000000 = dbBad := by
  decide

/-- C4 amended: a resource with a non-null owner whose stored expiry is
unparsable is skipped by the periodic sweep: its row survives unchanged
(owner and expiry intact), and it is never passed to Release; the sweep only
releases resources whose expiry parses and is ≤ now. -/
theorem C4_sweep_skips_unparsable (db : DB) (now : Int)
    (hids : (db.vms.map (·.id)).Nodup)
    (row : VMRow) (hmem : row ∈ db.vms) (hbb : row.booked_by.isSome)
    (hbad : row.expires_at = some .bad) :
    row ∈ (check_and_release_expired_vms db now).vms := by
  have hpres : ∀ (l : List String) (d : DB), row ∈ d.vms → row.id ∉ l →
      row ∈ (l.foldl (fun d vid => (release_vm d vid now).2) d).vms := by
    intro l
    induction l with
    | nil => intro d hd _; exact hd
    | cons a t ih =>
      intro d hd hnot
      simp only [List.foldl_cons]
      refine ih _ ?_ (fun h => hnot (List.mem_cons_of_mem a h))
      exact release_vm_preserves_other d a now hd
        (fun h => hnot (h ▸ List.mem_cons_self a t))
  have hnotin : row.id ∉ (db.vms.filter
        (fun r => r.booked_by.isSome && r.expires_at.isSome)).filterMap
      (fun r => match parse_iso r.expires_at with
        | none => none
        | some t => if t ≤ now then some r.id else none) := by
    intro hin
    rcases List.mem_filterMap.mp hin with ⟨r', hr', hfm⟩
    have hr'mem : r' ∈ db.vms := (List.mem_filter.mp hr').1
    cases hp : parse_iso r'.expires_at with
    | none => rw [hp] at hfm; cases hfm
    | some t =>
      rw [hp] at hfm
      by_cases ht : t ≤ now
      · simp [ht] at hfm
        have hreq : r' = row := nodup_key_inj (·.id) hids hr'mem hmem hfm
        rw [hreq, hbad] at hp
        cases hp
      · simp [ht] at hfm
  exact hpres _ db hmem hnotin

/-- C4 amended witness: the concrete lease with unparsable expiry survives
the sweep. -/
theorem C4_sweep_skips_unparsable_witness :
    (⟨"m", some "u", some .bad⟩ : VMRow)
      ∈ (check_and_release_expired_vms dbBad 1000000).vms :=
  C4_sweep_skips_unparsable dbBad 1000000 (by decide)
    ⟨"m", some "u", some .bad⟩ (by decide) rfl rfl

/-! ### Lemmas about the compactor's phase 2 -/

theorem isCR_of_isBookEv {ev : Ev} (h : isBookEv ev = true) : isCR ev = false := by
  simp only [isBookEv, beq_iff_eq] at h
  simp [isCR, h]

theorem phase2Step_eq_of_stale {cutoff : Int} {all : List Ev} {acc : List Nat}
    {ev : Ev} (hcr : isCR ev = true) {ct : Int} (hp : parse_iso ev.start = some ct)
    (hlt : ct < cutoff)
    (hemp : (all.filter (fun b => isBookEv b && decide (sortKey b ≤ ct))).isEmpty
      = false) :
    phase2Step cutoff all acc ev
      = (acc.filter (fun j =>
          !((all.filter (fun b => isBookEv b && decide (sortKey b ≤ ct))).map
            (·.id)).contains j)).filter (fun j => !(j == ev.id)) := by
  simp [phase2Step, hcr, hp, hlt, hemp]

theorem phase2Step_subset {cutoff : Int} {all : List Ev} {acc : List Nat} {ev : Ev}
    {i : Nat} (h : i ∈ phase2Step cutoff all acc ev) : i ∈ acc := by
  by_cases hcr : isCR ev = true
  · cases hp : parse_iso ev.start with
    | none => simpa [phase2Step, hcr, hp] using h
    | some ct =>
      by_cases hlt : ct < cutoff
      · by_cases hemp : (all.filter
            (fun b => isBookEv b && decide (sortKey b ≤ ct))).isEmpty = true
        · simpa [phase2Step, hcr, hp, hlt, hemp] using h
        · simp only [Bool.not_eq_true] at hemp
          rw [phase2Step_eq_of_stale hcr hp hlt hemp] at h
          exact (List.mem_filter.mp (List.mem_filter.mp h).1).1
      · simpa [phase2Step, hcr, hp, hlt] using h
  · simp only [Bool.not_eq_true] at hcr
    simpa [phase2Step, hcr] using h

theorem phase2_fold_subset {cutoff : Int} {all : List Ev} :
    ∀ (l : List Ev) (acc : List Nat) (i : Nat),
      i ∈ l.foldl (phase2Step cutoff all) acc → i ∈ acc := by
  intro l
  induction l with
  | nil => intro acc i h; exact h
  | cons a t ih =>
    intro acc i h
    simp only [List.foldl_cons] at h
    exact phase2Step_subset (ih _ _ h)

theorem phase2Step_removes {cutoff : Int} {all : List Ev} {acc : List Nat} {ev : Ev}
    {i : Nat} (hcr : isCR ev = true) {ct : Int} (hp : parse_iso ev.start = some ct)
    (hlt : ct < cutoff)
    (hin : i ∈ (all.filter (fun b => isBookEv b && decide (sortKey b ≤ ct))).map (·.id)) :
    i ∉ phase2Step cutoff all acc ev := by
  intro hmem
  have hemp : (all.filter (fun b => isBookEv b && decide (sortKey b ≤ ct))).isEmpty
      = false := by
    cases hpbn : all.filter (fun b => isBookEv b && decide (sortKey b ≤ ct)) with
    | nil => rw [hpbn] at hin; cases hin
    | cons x xs => rfl
  rw [phase2Step_eq_of_stale hcr hp hlt hemp] at hmem
  have h2 := (List.mem_filter.mp (List.mem_filter.mp hmem).1).2
  have h3 : ((all.filter (fun b => isBookEv b && decide (sortKey b ≤ ct))).map
      (·.id)).contains i = true := by
    simpa using hin
  rw [h3] at h2
  simp at h2

theorem phase2Step_keeps {cutoff : Int} {all : List Ev} {acc : List Nat} {ev : Ev}
    {i : Nat}
    (hs : ∀ ct : Int, isCR ev = true → parse_iso ev.start = some ct → ct < cutoff →
      i ∉ (all.filter (fun b => isBookEv b && decide (sortKey b ≤ ct))).map (·.id) ∧
      i ≠ ev.id) :
    (i ∈ phase2Step cutoff all acc ev ↔ i ∈ acc) := by
  by_cases hcr : isCR ev = true
  · cases hp : parse_iso ev.start with
    | none => simp [phase2Step, hcr, hp]
    | some ct =>
      by_cases hlt : ct < cutoff
      · rcases hs ct hcr hp hlt with ⟨hnotin, hne⟩
        by_cases hemp : (all.filter
            (fun b => isBookEv b && decide (sortKey b ≤ ct))).isEmpty = true
        · simp [phase2Step, hcr, hp, hlt, hemp]
        · simp only [Bool.not_eq_true] at hemp
          rw [phase2Step_eq_of_stale hcr hp hlt hemp]
          constructor
          · intro hmem
            exact (List.mem_filter.mp (List.mem_filter.mp hmem).1).1
          · intro hacc
            refine List.mem_filter.mpr ⟨List.mem_filter.mpr ⟨hacc, ?_⟩, ?_⟩
            · simp only [Bool.not_eq_true']
              simpa using hnotin
            · simpa using hne
      · simp [phase2Step, hcr, hp, hlt]
  · simp only [Bool.not_eq_true] at hcr
    simp [phase2Step, hcr]

theorem phase2_fold_removes {cutoff : Int} {all : List Ev} :
    ∀ (l : List Ev) (acc : List Nat) {i : Nat} {ev : Ev},
      ev ∈ l → isCR ev = true → ∀ {ct : Int}, parse_iso ev.start = some ct →
      ct < cutoff →
      i ∈ (all.filter (fun b => isBookEv b && decide (sortKey b ≤ ct))).map (·.id) →
      i ∉ l.foldl (phase2Step cutoff all) acc := by
  intro l
  induction l with
  | nil =>
    intro acc i ev h
    cases h
  | cons a t ih =>
    intro acc i ev hev hcr ct hp hlt hin hmem
    simp only [List.foldl_cons] at hmem
    rcases List.mem_cons.mp hev with rfl | hev'
    · exact phase2Step_removes hcr hp hlt hin (phase2_fold_subset t _ i hmem)
    · exact ih _ hev' hcr hp hlt hin hmem

theorem phase2_fold_keeps {cutoff : Int} {all : List Ev} :
    ∀ (l : List Ev) (acc : List Nat) (i : Nat),
      (∀ ev ∈ l, ∀ ct : Int, isCR ev = true → parse_iso ev.start = some ct →
        ct < cutoff →
        i ∉ (all.filter (fun b => isBookEv b && decide (sortKey b ≤ ct))).map (·.id) ∧
        i ≠ ev.id) →
      (i ∈ l.foldl (phase2Step cutoff all) acc ↔ i ∈ acc) := by
  intro l
  induction l with
  | nil =>
    intro acc i _
    exact Iff.rfl
  | cons a t ih =>
    intro acc i hs
    simp only [List.foldl_cons]
    rw [ih _ i (fun ev hev => hs ev (List.mem_cons_of_mem a hev))]
    exact phase2Step_keeps (hs a (List.mem_cons_self a t))

theorem mem_purgeGroup {cutoff : Int} {events : List Ev} {ev : Ev} :
    ev ∈ purgeGroup cutoff events ↔
      ev ∈ events.insertionSort (fun a b => sortKey a ≤ sortKey b) ∧
      ev.id ∈ (events.insertionSort (fun a b => sortKey a ≤ sortKey b)).foldl
        (phase2Step cutoff (events.insertionSort (fun a b => sortKey a ≤ sortKey b)))
        (((events.insertionSort (fun a b => sortKey a ≤ sortKey b)).filter
          (phase1Keep cutoff)).map (·.id)) := by
  unfold purgeGroup
  rw [List.mem_filter]
  constructor
  · rintro ⟨h1, h2⟩
    exact ⟨h1, by simpa using h2⟩
  · rintro ⟨h1, h2⟩
    exact ⟨h1, by simpa using h2⟩

/-- C9: in each (requester, resource) history group, deleting a
`cancel`/`release` record whose start is older than the cutoff also deletes
every preceding `book` record it terminates (those whose sort key — parsed
start, epoch when unparsable — is not after the cancel time), together with
the stale cancel/release itself; a `book` record terminated by no stale
cancel/release survives compaction exactly as long as its own end is
missing or not older than the cutoff. -/
theorem C9_purge_pairing (cutoff : Int) (events : List Ev)
    (hnodup : (events.map (·.id)).Nodup) :
    (∀ c ∈ events, isCR c = true → ∀ s : Int, parse_iso c.start = some s →
      s < cutoff →
      c ∉ purgeGroup cutoff events ∧
      ∀ b ∈ events, isBookEv b = true → sortKey b ≤ s →
        b ∉ purgeGroup cutoff events) ∧
    (∀ b ∈ events, isBookEv b = true →
      (∀ c ∈ events, isCR c = true → ∀ s : Int, parse_iso c.start = some s →
        s < cutoff → ¬(sortKey b ≤ s)) →
      (b ∈ purgeGroup cutoff events ↔
        ∀ e : Int, parse_iso b.end_ = some e → ¬(e < cutoff))) := by
  have hperm : (events.insertionSort (fun a b => sortKey a ≤ sortKey b)).Perm events :=
    List.perm_insertionSort _ _
  set sorted := events.insertionSort (fun a b => sortKey a ≤ sortKey b) with hsorted
  have hsnodup : (sorted.map (·.id)).Nodup := ((hperm.map _).nodup_iff).mpr hnodup
  constructor
  · intro c hc hcr s hps hlt
    have hcs : c ∈ sorted := hperm.mem_iff.mpr hc
    constructor
    · intro hmem
      rcases mem_purgeGroup.mp hmem with ⟨_, hid⟩
      have hid1 : c.id ∈ (sorted.filter (phase1Keep cutoff)).map (·.id) :=
        phase2_fold_subset _ _ _ hid
      rcases List.mem_map.mp hid1 with ⟨x, hx, hxid⟩
      rcases List.mem_filter.mp hx with ⟨hxs, hx1⟩
      have hxc : x = c := nodup_key_inj (·.id) hsnodup hxs hcs hxid
      rw [hxc] at hx1
      simp [phase1Keep, hcr, hps, hlt] at hx1
    · intro b hb hbk hble hmem
      rcases mem_purgeGroup.mp hmem with ⟨hbs, hid⟩
      refine phase2_fold_removes sorted _ hcs hcr hps hlt ?_ hid
      exact List.mem_map_of_mem _
        (List.mem_filter.mpr ⟨hperm.mem_iff.mpr hb, by simp [hbk, hble]⟩)
  · intro b hb hbk hnost
    have hbs : b ∈ sorted := hperm.mem_iff.mpr hb
    have hcond : ∀ ev ∈ sorted, ∀ ct : Int, isCR ev = true →
        parse_iso ev.start = some ct → ct < cutoff →
        b.id ∉ (sorted.filter
          (fun x => isBookEv x && decide (sortKey x ≤ ct))).map (·.id) ∧
        b.id ≠ ev.id := by
      intro ev hev ct hcr hp hlt
      have hevents : ev ∈ events := hperm.mem_iff.mp hev
      constructor
      · intro hin
        rcases List.mem_map.mp hin with ⟨x, hx, hxid⟩
        rcases List.mem_filter.mp hx with ⟨hxs, hxcond⟩
        have hxb : x = b := nodup_key_inj (·.id) hsnodup hxs hbs hxid
        rw [hxb, Bool.and_eq_true] at hxcond
        have hble : sortKey b ≤ ct := by simpa using hxcond.2
        exact (hnost ev hevents hcr ct hp hlt) hble
      · intro hideq
        have hevb : b = ev := nodup_key_inj (·.id) hsnodup hbs hev hideq
        rw [← hevb, isCR_of_isBookEv hbk] at hcr
        cases hcr
    have hiff := phase2_fold_keeps sorted
      ((sorted.filter (phase1Keep cutoff)).map (·.id)) b.id hcond
    have hk1 : b.id ∈ (sorted.filter (phase1Keep cutoff)).map (·.id) ↔
        phase1Keep cutoff b = true := by
      constructor
      · intro h
        rcases List.mem_map.mp h with ⟨x, hx, hxid⟩
        rcases List.mem_filter.mp hx with ⟨hxs, hx1⟩
        have hxb : x = b := nodup_key_inj (·.id) hsnodup hxs hbs hxid
        rw [hxb] at hx1
        exact hx1
      · intro h
        exact List.mem_map_of_mem _ (List.mem_filter.mpr ⟨hbs, h⟩)
    have hp1 : phase1Keep cutoff b = true ↔
        (∀ e : Int, parse_iso b.end_ = some e → ¬(e < cutoff)) := by
      have hncr : isCR b = false := isCR_of_isBookEv hbk
      cases hpe : parse_iso b.end_ with
      | none => simp [phase1Keep, hncr, hbk, hpe]
      | some e =>
        by_cases hel : e < cutoff
        · simp [phase1Keep, hncr, hbk, hpe, hel]
        · simp [phase1Keep, hncr, hbk, hpe, hel]
          omega
    constructor
    · intro hmem
      rcases mem_purgeGroup.mp hmem with ⟨_, hid⟩
      exact hp1.mp (hk1.mp (hiff.mp hid))
    · intro hend
      exact mem_purgeGroup.mpr ⟨hbs, hiff.mpr (hk1.mpr (hp1.mpr hend))⟩

/-- C9 witness: a `book` (id 1, start 0, end 200) followed by a `release`
(id 2, start 5) with cutoff 100: the release is stale, so the book — though
its own end 200 is not stale — is deleted together with it. -/
theorem C9_purge_pairing_witness :
    (⟨1, some (.val 0), some (.val 200), some "book"⟩ : Ev)
      ∉ purgeGroup 100
        [⟨1, some (.val 0), some (.val 200), some "book"⟩,
         ⟨2, some (.val 5), none, some "release"⟩] :=
  ((C9_purge_pairing 100
      [⟨1, some (.val 0), some (.val 200), some "book"⟩,
       ⟨2, some (.val 5), none, some "release"⟩] (by decide)).1
    ⟨2, some (.val 5), none, some "release"⟩ (by decide) (by decide) 5 rfl
    (by decide)).2
    ⟨1, some (.val 0), some (.val 200), some "book"⟩ (by decide) (by decide)
    (by decide)
